import Mathlib

/-!
Verification of the copilot-quarto tool system: the tool registry with its
validate-then-execute contract (src/core.js), the front-matter document
engine used by the dashboard tools (src/tools/dashboard.js), parameter
validation of concrete tools (src/tools/quarto-project.js, the GitHub
secret tool), and the cleanup-on-failure behaviour of the project
scaffolding tool (src/tools/quarto-project.js).

Texts are modelled as Lean Strings; a String is a structure wrapping a
list of characters, and the JavaScript operations split, join, trim are
embedded as the corresponding list operations on the character data.
-/

mutual

/-- Values stored in a parsed front-matter header: a scalar string, or a
nested mapping (insertion-ordered sequence of fields), mirroring the
JavaScript objects produced by the yaml library. -/
inductive Yval where
  | s (v : String) : Yval
  | obj (fields : Yfields) : Yval

/-- Fields of a nested mapping value, in insertion order. -/
inductive Yfields where
  | nil : Yfields
  | cons (k : String) (v : Yval) (rest : Yfields) : Yfields

end

/-- Header mapping of a front-matter document: a string-keyed,
insertion-ordered association list, modelling a JavaScript object. -/
abbrev Header := List (String × Yval)

/-- Embedding of the JavaScript String.prototype.trim call used on each
scanned line: drop whitespace from both ends of the character list. -/
def jsTrim (l : List Char) : List Char :=
  ((l.dropWhile Char.isWhitespace).reverse.dropWhile Char.isWhitespace).reverse

/-- Test from parseQmdFile: the line, after trimming, is exactly the
three-hyphen front-matter delimiter. -/
def isDelimLine (l : List Char) : Bool :=
  jsTrim l == "---".data

/-- Index of the first delimiter line, mirroring the scanning loop of
parseQmdFile (src/tools/dashboard.js lines 69-78). -/
def findDelimIdx : List (List Char) → Option Nat
  | [] => none
  | l :: rest =>
    if isDelimLine l then some 0
    else (findDelimIdx rest).map (· + 1)

/-- Split a character list at the first colon-space separator, returning
the text before and after it.  Used to read one line of a flat YAML
mapping. -/
def splitColonSpace : List Char → Option (List Char × List Char)
  | [] => none
  | c :: rest =>
    if c = ':' then
      match rest with
      | ' ' :: rest2 => some ([], rest2)
      | _ => none
    else (splitColonSpace rest).map (fun p => (c :: p.1, p.2))

/-- Read one line of a flat YAML mapping as a key/scalar-value pair. -/
def parseYamlLine (l : List Char) : Option (String × Yval) :=
  (splitColonSpace l).map (fun p => (⟨p.1⟩, Yval.s ⟨p.2⟩))

/-- Decode a list of non-blank mapping lines, all or nothing: any
unreadable line fails the whole region, as the library throw does. -/
def parseYamlLines : List (List Char) → Option Header
  | [] => some []
  | l :: ls =>
    match parseYamlLine l, parseYamlLines ls with
    | some kv, some rest => some (kv :: rest)
    | _, _ => none

/-- Modelled from the spec: the repository delegates YAML decoding to the
external yaml library, which is not part of the repository sources.  Per
section 4.3 the header region is interpreted as a structured mapping; the
model covers the flat fragment, one scalar field per non-blank line, and
returns none outside it (the library throws a ParseError there).  An
empty or blank region yields the empty mapping, matching the null-to-{}
coercion at the call site. -/
def yamlParse (cs : List Char) : Option Header :=
  parseYamlLines ((cs.splitOn '\n').filter (fun l => !(jsTrim l).isEmpty))

/-- Spaces used to indent a nested mapping level. -/
def indentChars (n : Nat) : List Char := List.replicate n ' '

mutual

/-- Modelled from the spec: the repository delegates YAML encoding to the
external yaml library, which is not part of the repository sources.  Per
section 4.3 a scalar field is re-encoded as a key, colon-space, value
line, and a nested mapping field as a key-colon line followed by its
fields indented two further spaces. -/
def yamlStringifyVal (ind : Nat) (k : String) : Yval → List Char
  | Yval.s v => indentChars ind ++ k.data ++ ':' :: ' ' :: (v.data ++ ['\n'])
  | Yval.obj fs => indentChars ind ++ k.data ++ ':' :: '\n' :: yamlStringifyFields (ind + 2) fs

/-- Encoding of the fields of a nested mapping, one after the other. -/
def yamlStringifyFields (ind : Nat) : Yfields → List Char
  | Yfields.nil => []
  | Yfields.cons k v rest => yamlStringifyVal ind k v ++ yamlStringifyFields ind rest

end

/-- Modelled from the spec: encoding of a whole header mapping, field by
field; per section 4.3 the empty mapping serializes to nothing between
the delimiters. -/
def yamlStringifyAux (ind : Nat) : List (String × Yval) → List Char
  | [] => []
  | (k, v) :: rest => yamlStringifyVal ind k v ++ yamlStringifyAux ind rest

/-- Top-level YAML encoding of a header mapping. -/
def yamlStringify (fm : Header) : String := ⟨yamlStringifyAux 0 fm⟩

/-- Embedding of parseQmdFile (src/tools/dashboard.js lines 63-90): scan
the lines for the first two delimiter lines; when both exist the region
strictly between them is decoded as the header and the lines after the
second delimiter, re-joined, are the body; otherwise the header is empty
and the body is the whole input.  Returns none exactly when the yaml
decoding of the header region fails (the library throws). -/
def parseQmdFile (content : String) : Option (Header × String) :=
  let lines := content.data.splitOn '\n'
  match findDelimIdx lines with
  | none => some ([], content)
  | some i =>
    match findDelimIdx (lines.drop (i + 1)) with
    | none => some ([], content)
    | some k =>
      match yamlParse (List.intercalate ['\n'] ((lines.drop (i + 1)).take k)) with
      | none => none
      | some fm => some (fm, ⟨List.intercalate ['\n'] (lines.drop (i + 1 + k + 1))⟩)

/-- Embedding of serializeQmdFile (src/tools/dashboard.js lines 92-95):
delimiter line, the encoded header, delimiter line, then the body exactly
as given. -/
def serializeQmdFile (fm : Header) (body : String) : String :=
  "---\n" ++ yamlStringify fm ++ "---\n" ++ body

/-- Embedding of a JavaScript keyed update, both Map.set and property
assignment on an object: an existing key keeps its position and gets the
new value, a fresh key is appended at the end. -/
def jsSet {β : Type} (m : List (String × β)) (k : String) (v : β) : List (String × β) :=
  if m.any (fun p => p.1 == k) then m.map (fun p => if p.1 == k then (k, v) else p)
  else m ++ [(k, v)]

/-- Characters acceptable in a key of the flat plain-scalar YAML fragment
the model covers. -/
def keyCharOk (c : Char) : Bool := c.isAlphanum || c == '_' || c == '-'

/-- Characters acceptable in a scalar value of the flat plain-scalar YAML
fragment the model covers. -/
def valCharOk (c : Char) : Bool :=
  c.isAlphanum || c == ' ' || c == '_' || c == '-' || c == '.'

/-- Key of the plain fragment: nonempty, starts with a letter, all
characters unproblematic, so the yaml library emits it unquoted. -/
def plainKeyOk (k : String) : Bool :=
  !k.data.isEmpty && (k.data.headD 'a').isAlpha && k.data.all keyCharOk

/-- Scalar value of the plain fragment: nonempty, starts with an
alphanumeric character, does not end in a space, all characters
unproblematic, so the yaml library emits it unquoted on one line. -/
def plainValOk (v : String) : Bool :=
  !v.data.isEmpty && (v.data.headD 'a').isAlphanum && v.data.all valCharOk &&
    !(v.data.getLast? == some ' ')

/-- Header entry inside the plain flat fragment: a scalar field with a
plain key and a plain value. -/
def plainEntry : String × Yval → Bool
  | (k, Yval.s v) => plainKeyOk k && plainValOk v
  | (_, Yval.obj _) => false

/-- Header inside the plain flat fragment: every field is plain. -/
def plainHeader (fm : Header) : Bool := fm.all plainEntry

/-- Parameter values passed to a tool: the JavaScript values the modelled
validators distinguish, strings and booleans. -/
inductive Pval where
  | str (s : String) : Pval
  | bool (b : Bool) : Pval
deriving DecidableEq

/-- Params mapping of a tool invocation: a string-keyed association list
modelling the JavaScript params object; absent keys read as undefined. -/
abbrev Params := List (String × Pval)

/-- Embedding of JavaScript truthiness on a possibly-absent parameter:
undefined, the empty string and false are falsy. -/
def truthy : Option Pval → Bool
  | none => false
  | some (Pval.str s) => !s.isEmpty
  | some (Pval.bool b) => b

/-- Embedding of the typeof-boolean test on a possibly-absent parameter. -/
def isBoolParam : Option Pval → Bool
  | some (Pval.bool _) => true
  | _ => false

/-- Result of a validation contract (src/core.js): the valid flag and the
ordered list of violated constraints. -/
structure ValidationResult where
  valid : Bool
  errors : List String
deriving DecidableEq

/-- Embedding of GithubActionsCreateSecret.validateParams: one error per
falsy required field, pushed in source order; valid iff no error. -/
def githubActionsCreateSecretValidateParams (params : Params) : ValidationResult :=
  let errors :=
    (if !truthy (params.lookup "repository_name") then ["repository_name is required"] else []) ++
    (if !truthy (params.lookup "secret_name") then ["secret_name is required"] else []) ++
    (if !truthy (params.lookup "secret_value") then ["secret_value is required"] else [])
  { valid := errors.isEmpty, errors := errors }

/-- Embedding of QuartoCreateProjectWithRenvAndGit.validateParams
(src/tools/quarto-project.js lines 15-34): the directory name must be
truthy and the two flags must be booleans; one error per violated
constraint, in source order. -/
def quartoCreateProjectValidateParams (params : Params) : ValidationResult :=
  let errors :=
    (if !truthy (params.lookup "project_directory_name") then ["project_directory_name is required"] else []) ++
    (if !isBoolParam (params.lookup "create_git_repo") then ["create_git_repo must be a boolean"] else []) ++
    (if !isBoolParam (params.lookup "use_renv") then ["use_renv must be a boolean"] else [])
  { valid := errors.isEmpty, errors := errors }

/-- Embedding of QuartoDefineDashboardFormat.validateParams: the single
required field qmd_file_path. -/
def quartoDefineDashboardFormatValidateParams (params : Params) : ValidationResult :=
  let errors :=
    (if !truthy (params.lookup "qmd_file_path") then ["qmd_file_path is required"] else [])
  { valid := errors.isEmpty, errors := errors }

/-- Tool of the registry (src/core.js): a name, a description, the
validation contract, and the execute behaviour.  The execute result type
is a parameter; a thrown failure is an error value carrying the message. -/
structure Tool (α : Type) where
  name : String
  description : String
  validateParams : Params → ValidationResult
  execute : Params → Except String α

/-- Registry state: the name-to-tool Map of CopilotQuartoToolRegistry. -/
abbrev Registry (α : Type) := List (String × Tool α)

/-- Embedding of CopilotQuartoToolRegistry.register (src/core.js lines
70-72): an unconditional Map.set keyed by the tool name. -/
def register {α : Type} (reg : Registry α) (tool : Tool α) : Registry α :=
  jsSet reg tool.name tool

/-- Embedding of CopilotQuartoToolRegistry.execute (src/core.js lines
80-92): look the tool up, fail when absent; run its validation contract,
fail with the joined error list when invalid; otherwise run the tool. -/
def registryExecute {α : Type} (reg : Registry α) (toolName : String) (params : Params) :
    Except String α :=
  match reg.lookup toolName with
  | none => Except.error ("Tool \x27" ++ toolName ++ "\x27 not found")
  | some tool =>
    let validation := tool.validateParams params
    if validation.valid then tool.execute params
    else Except.error ("Parameter validation failed: " ++ String.intercalate ", " validation.errors)

/-- Embedding of CopilotQuartoToolRegistry.getToolNames. -/
def getToolNames {α : Type} (reg : Registry α) : List String := reg.map (fun p => p.1)

/-- Embedding of the pure document transformation inside
QuartoDefineDashboardFormat.execute (src/tools/dashboard.js lines 38-46):
parse the file content, overwrite the format field, re-serialize.  File
read and write are modelled by taking and returning the content; none is
the case where the yaml decoding throws. -/
def defineDashboardFormatContent (format_type : String) (content : String) : Option String :=
  (parseQmdFile content).map
    (fun p => serializeQmdFile (jsSet p.1 "format" (Yval.s format_type)) p.2)

/-- Comparison of a possibly-absent header value with a string, embedding
the strict-equality test frontMatter.format !== format on a JavaScript
string. -/
def headerValIs : Option Yval → String → Bool
  | some (Yval.s s), t => s == t
  | _, _ => false

/-- Embedding of the header mutation inside
QuartoDefineDashboardLayout.execute (src/tools/dashboard.js lines
137-144): force format to dashboard when it differs, then write the
layout and orientation fields. -/
def defineDashboardLayoutHeader (layout : Yval) (orientation : String) (fm : Header) : Header :=
  let fm1 := if headerValIs (fm.lookup "format") "dashboard" then fm
             else jsSet fm "format" (Yval.s "dashboard")
  let fm2 := jsSet fm1 "layout" layout
  jsSet fm2 "orientation" (Yval.s orientation)

/-- Embedding of the pure document transformation inside
QuartoDefineDashboardLayout.execute (src/tools/dashboard.js lines
124-164): parse, mutate the header, re-serialize. -/
def defineDashboardLayoutContent (layout : Yval) (orientation : String) (content : String) :
    Option String :=
  (parseQmdFile content).map
    (fun p => serializeQmdFile (defineDashboardLayoutHeader layout orientation p.1) p.2)

/-- Test that a path list starts with the given pattern list. -/
def leadsWith : List Char → List Char → Bool
  | [], _ => true
  | _ :: _, [] => false
  | a :: as, b :: bs => a == b && leadsWith as bs

/-- Test that a path is the project directory itself or lies underneath
it, the region fs.removeSync(projectPath) erases. -/
def underDir (dir p : String) : Bool :=
  p == dir || leadsWith (dir ++ "/").data p.data

/-- Outcome of one step of QuartoCreateProjectWithRenvAndGit.execute: the
paths the step created before finishing, and the failure it raised, if
any.  Collaborator steps (git, renv) are external processes, so their
outcome is a parameter of the model. -/
structure StepRes where
  created : List String
  err : Option String

/-- Sequential run of the steps inside the try block: each step adds its
created paths; the first failure stops the run. -/
def runSteps (fs : List String) : List StepRes → List String × Option String
  | [] => (fs, none)
  | step :: rest =>
    let fs2 := fs ++ step.created
    match step.err with
    | some e => (fs2, some e)
    | none => runSteps fs2 rest

/-- Embedding of QuartoCreateProjectWithRenvAndGit.execute
(src/tools/quarto-project.js lines 36-99) over a filesystem modelled as
the list of existing paths: fail if the target directory exists; create
it; run the quarto-scaffold, optional git, optional renv and README
steps; on any step failure remove the whole project directory and
propagate the failure. -/
def createProjectExecute (fs : List String) (projectDir : String)
    (create_git_repo use_renv : Bool)
    (quartoStep gitStep renvStep readmeStep : StepRes) :
    List String × Option String :=
  if fs.any (fun p => p == projectDir) then
    (fs, some ("Directory \x27" ++ projectDir ++ "\x27 already exists"))
  else
    let fs1 := fs ++ [projectDir]
    let steps := [quartoStep] ++ (if create_git_repo then [gitStep] else []) ++
      (if use_renv then [renvStep] else []) ++ [readmeStep]
    match runSteps fs1 steps with
    | (fs2, some e) => (fs2.filter (fun p => !underDir projectDir p), some e)
    | (fs2, none) => (fs2, none)

/-- Line a plain scalar header entry serializes to, without the
terminating newline. -/
def entryLine : String × Yval → List Char
  | (k, Yval.s v) => k.data ++ ':' :: ' ' :: v.data
  | (_, Yval.obj _) => []

/-- Concrete tool used to witness duplicate registration: first
registrant under the shared name. -/
def dupToolA : Tool Unit :=
  { name := "dup", description := "first",
    validateParams := fun _ => { valid := true, errors := [] },
    execute := fun _ => Except.ok () }

/-- Concrete tool used to witness duplicate registration: second
registrant under the shared name. -/
def dupToolB : Tool Unit :=
  { name := "dup", description := "second",
    validateParams := fun _ => { valid := true, errors := [] },
    execute := fun _ => Except.ok () }

/-- Concrete registry entry built from the GithubActionsCreateSecret
validation contract, with an inert execute body, used to witness registry
behaviour on invalid parameters. -/
def secretWitnessTool : Tool Unit :=
  { name := "github_actions_create_secret",
    description := "Create or update an encrypted repo secret (masked in logs).",
    validateParams := githubActionsCreateSecretValidateParams,
    execute := fun _ => Except.ok () }

/-- Characters kept by dropWhile when they do not satisfy the predicate. -/
theorem mem_dropWhile_not {p : Char → Bool} {c : Char} (hc : p c = false) :
    ∀ {l : List Char}, c ∈ l → c ∈ l.dropWhile p := by
  intro l h
  induction l with
  | nil => cases h
  | cons a as ih =>
    rw [List.dropWhile_cons]
    by_cases ha : p a = true
    · simp only [ha, if_true]
      rcases List.mem_cons.mp h with rfl | h2
      · rw [hc] at ha; cases ha
      · exact ih h2
    · simp only [Bool.not_eq_true] at ha
      simp only [ha, Bool.false_eq_true, if_false]
      exact h

/-- Non-whitespace characters of a line survive the trim. -/
theorem mem_jsTrim {c : Char} (hw : c.isWhitespace = false) {l : List Char} (h : c ∈ l) :
    c ∈ jsTrim l := by
  unfold jsTrim
  have h1 : c ∈ l.dropWhile Char.isWhitespace := mem_dropWhile_not hw h
  have h2 : c ∈ (l.dropWhile Char.isWhitespace).reverse := List.mem_reverse.mpr h1
  exact List.mem_reverse.mpr (mem_dropWhile_not hw h2)

/-- Lines containing a colon are never delimiter lines. -/
theorem isDelimLine_eq_false {l : List Char} (h : ':' ∈ l) : isDelimLine l = false := by
  unfold isDelimLine
  apply beq_eq_false_iff_ne.mpr
  intro he
  have h2 : ':' ∈ jsTrim l := mem_jsTrim (by decide) h
  rw [he] at h2
  exact absurd h2 (by decide)

/-- Scanning past a block of non-delimiter lines finds the delimiter that
follows, at the index equal to the length of the block. -/
theorem findDelimIdx_append_delim (pre : List (List Char)) (d : List Char)
    (tail : List (List Char)) (hpre : ∀ l ∈ pre, isDelimLine l = false)
    (hd : isDelimLine d = true) :
    findDelimIdx (pre ++ d :: tail) = some pre.length := by
  induction pre with
  | nil => simp [findDelimIdx, hd]
  | cons a as ih =>
    have ha := hpre a (List.mem_cons_self a as)
    simp [findDelimIdx, ha, ih (fun l hl => hpre l (List.mem_cons_of_mem a hl))]

/-- Scanning a block with no delimiter line finds nothing. -/
theorem findDelimIdx_eq_none (ls : List (List Char)) (h : ∀ l ∈ ls, isDelimLine l = false) :
    findDelimIdx ls = none := by
  induction ls with
  | nil => rfl
  | cons a as ih =>
    simp [findDelimIdx, h a (List.mem_cons_self a as),
      ih (fun l hl => h l (List.mem_cons_of_mem a hl))]

/-- Decomposition of a successful delimiter scan: everything before the
found index is a non-delimiter line, and the found line is a delimiter. -/
theorem findDelimIdx_eq_some {ls : List (List Char)} {i : Nat} (h : findDelimIdx ls = some i) :
    ∃ pre d tail, ls = pre ++ d :: tail ∧ pre.length = i ∧
      (∀ l ∈ pre, isDelimLine l = false) ∧ isDelimLine d = true := by
  induction ls generalizing i with
  | nil => cases h
  | cons a as ih =>
    by_cases ha : isDelimLine a = true
    · have h0 : i = 0 := by
        simp [findDelimIdx, ha] at h
        omega
      exact ⟨[], a, as, rfl, by simp [h0], by simp, ha⟩
    · simp only [Bool.not_eq_true] at ha
      rw [show findDelimIdx (a :: as) = (findDelimIdx as).map (· + 1) by
        simp [findDelimIdx, ha]] at h
      obtain ⟨j, hj, hji⟩ := Option.map_eq_some'.mp h
      obtain ⟨pre, d, tail, rfl, hlen, hpre, hd⟩ := ih hj
      refine ⟨a :: pre, d, tail, rfl, by simp [hlen, hji], ?_, hd⟩
      intro l hl
      rcases List.mem_cons.mp hl with rfl | hl2
      · exact ha
      · exact hpre l hl2

/-- Shape of a plain header entry: a scalar field with plain key and
value. -/
theorem plainEntry_shape {p : String × Yval} (h : plainEntry p = true) :
    ∃ k v, p = (k, Yval.s v) ∧ plainKeyOk k = true ∧ plainValOk v = true := by
  obtain ⟨k, val⟩ := p
  cases val with
  | s v =>
    have h2 : plainKeyOk k = true ∧ plainValOk v = true := by
      simpa [plainEntry, Bool.and_eq_true] using h
    exact ⟨k, v, rfl, h2.1, h2.2⟩
  | obj fs => simp [plainEntry] at h

/-- Every character of a plain key is acceptable. -/
theorem plainKeyOk_all {k : String} (h : plainKeyOk k = true) :
    ∀ c ∈ k.data, keyCharOk c = true := by
  have h2 : k.data.all keyCharOk = true := by
    simp only [plainKeyOk, Bool.and_eq_true] at h
    exact h.2
  exact fun c hc => List.all_eq_true.mp h2 c hc

/-- Every character of a plain value is acceptable. -/
theorem plainValOk_all {v : String} (h : plainValOk v = true) :
    ∀ c ∈ v.data, valCharOk c = true := by
  have h2 : v.data.all valCharOk = true := by
    simp only [plainValOk, Bool.and_eq_true] at h
    exact h.1.2
  exact fun c hc => List.all_eq_true.mp h2 c hc

/-- Serialized line of a plain scalar entry contains no newline. -/
theorem entryLine_not_newline {k v : String} (hk : plainKeyOk k = true)
    (hv : plainValOk v = true) :
    ∀ c ∈ entryLine (k, Yval.s v), ¬((c == '\n') = true) := by
  intro c hc hbeq
  have hceq : c = '\n' := by simpa using hbeq
  subst hceq
  simp only [entryLine, List.mem_append, List.mem_cons] at hc
  rcases hc with hck | hc2
  · have := plainKeyOk_all hk _ hck
    exact absurd this (by decide)
  · rcases hc2 with hcol | hc3
    · exact absurd hcol (by decide)
    · rcases hc3 with hsp | hcv
      · exact absurd hsp (by decide)
      · have := plainValOk_all hv _ hcv
        exact absurd this (by decide)

/-- Serialized line of a plain scalar entry contains the separator
colon. -/
theorem entryLine_colon_mem (k v : String) : ':' ∈ entryLine (k, Yval.s v) := by
  simp [entryLine]

/-- Splitting the serialized header block followed by a delimiter line
and arbitrary further text recovers one chunk per header field, then the
delimiter chunk, then the split of the rest. -/
theorem splitOnP_stringify (fm : Header) (h : plainHeader fm = true) (rest : List Char) :
    (yamlStringifyAux 0 fm ++ '-' :: '-' :: '-' :: '\n' :: rest).splitOnP (· == '\n')
      = fm.map entryLine ++ "---".data :: rest.splitOnP (· == '\n') := by
  induction fm with
  | nil =>
    simp only [yamlStringifyAux, List.nil_append, List.map_nil]
    exact List.splitOnP_first _ "---".data (by decide) '\n' (by decide) rest
  | cons p fm ih =>
    have hsplit : plainEntry p = true ∧ plainHeader fm = true := by
      simpa [plainHeader, Bool.and_eq_true] using h
    obtain ⟨k, v, rfl, hk, hv⟩ := plainEntry_shape hsplit.1
    have heq : yamlStringifyAux 0 ((k, Yval.s v) :: fm) ++ '-' :: '-' :: '-' :: '\n' :: rest
        = entryLine (k, Yval.s v) ++
            '\n' :: (yamlStringifyAux 0 fm ++ '-' :: '-' :: '-' :: '\n' :: rest) := by
      simp [yamlStringifyAux, yamlStringifyVal, indentChars, entryLine, List.append_assoc]
    rw [heq,
      List.splitOnP_first _ (entryLine (k, Yval.s v)) (entryLine_not_newline hk hv) '\n'
        (by decide) _,
      ih hsplit.2]
    simp

/-- Splitting a key, colon-space, value line at the first colon-space
recovers the key and the value when the key is colon-free. -/
theorem splitColonSpace_key (k v : List Char) (hk : ∀ c ∈ k, c ≠ ':') :
    splitColonSpace (k ++ ':' :: ' ' :: v) = some (k, v) := by
  induction k with
  | nil => simp [splitColonSpace]
  | cons c cs ih =>
    have hc : c ≠ ':' := hk c (List.mem_cons_self c cs)
    simp [splitColonSpace, hc, ih (fun d hd => hk d (List.mem_cons_of_mem c hd))]

/-- Reading back the serialized line of a plain scalar entry recovers the
entry. -/
theorem parseYamlLine_entry {k : String} (v : String) (hk : plainKeyOk k = true) :
    parseYamlLine (entryLine (k, Yval.s v)) = some (k, Yval.s v) := by
  have hkc : ∀ c ∈ k.data, c ≠ ':' := by
    intro c hc he
    have h2 := plainKeyOk_all hk c hc
    rw [he] at h2
    exact absurd h2 (by decide)
  unfold parseYamlLine entryLine
  rw [splitColonSpace_key k.data v.data hkc]
  rfl

/-- Serialized line of a plain scalar entry does not trim to nothing. -/
theorem entryLine_trim_not_empty (k v : String) :
    (!(jsTrim (entryLine (k, Yval.s v))).isEmpty) = true := by
  have h : ':' ∈ jsTrim (entryLine (k, Yval.s v)) :=
    mem_jsTrim (by decide) (entryLine_colon_mem k v)
  simp only [Bool.not_eq_eq_eq_not, Bool.not_true, List.isEmpty_eq_false]
  exact List.ne_nil_of_mem h

/-- Reading back the serialized lines of a plain header recovers the
header. -/
theorem parseYamlLines_entry (fm : Header) (h : plainHeader fm = true) :
    parseYamlLines (fm.map entryLine) = some fm := by
  induction fm with
  | nil => rfl
  | cons p fm ih =>
    have hsplit : plainEntry p = true ∧ plainHeader fm = true := by
      simpa [plainHeader, Bool.and_eq_true] using h
    obtain ⟨k, v, rfl, hk, _⟩ := plainEntry_shape hsplit.1
    simp [parseYamlLines, parseYamlLine_entry v hk, ih hsplit.2]

/-- Decoding the joined serialized lines of a plain header recovers the
header. -/
theorem yamlParse_entryRegion (fm : Header) (h : plainHeader fm = true) :
    yamlParse (List.intercalate ['\n'] (fm.map entryLine)) = some fm := by
  cases fm with
  | nil => rfl
  | cons p fm' =>
    have hlines : ∀ l ∈ (p :: fm').map entryLine, '\n' ∉ l := by
      intro l hl hmem
      obtain ⟨q, hq, rfl⟩ := List.mem_map.mp hl
      have hq2 : plainEntry q = true := List.all_eq_true.mp h q hq
      obtain ⟨k, v, rfl, hk, hv⟩ := plainEntry_shape hq2
      exact entryLine_not_newline hk hv '\n' hmem (by decide)
    have hne : (p :: fm').map entryLine ≠ [] := by simp
    unfold yamlParse
    rw [List.splitOn_intercalate ((p :: fm').map entryLine) '\n' hlines hne]
    have hfil : ((p :: fm').map entryLine).filter (fun l => !(jsTrim l).isEmpty)
        = (p :: fm').map entryLine := by
      apply List.filter_eq_self.mpr
      intro l hl
      obtain ⟨q, hq, rfl⟩ := List.mem_map.mp hl
      have hq2 : plainEntry q = true := List.all_eq_true.mp h q hq
      obtain ⟨k, v, rfl, _, _⟩ := plainEntry_shape hq2
      exact entryLine_trim_not_empty k v
    rw [hfil]
    exact parseYamlLines_entry _ h

/-- Character data of a serialized document: delimiter line, encoded
header, delimiter line, body. -/
theorem serializeQmdFile_data (fm : Header) (body : String) :
    (serializeQmdFile fm body).data
      = '-' :: '-' :: '-' :: '\n' :: (yamlStringifyAux 0 fm ++ '-' :: '-' :: '-' :: '\n' :: body.data) := by
  have h1 : ∀ a b : String, (a ++ b).data = a.data ++ b.data := fun a b => rfl
  show ((("---\n" ++ yamlStringify fm) ++ "---\n") ++ body).data = _
  rw [h1, h1, h1]
  have h2 : (yamlStringify fm).data = yamlStringifyAux 0 fm := rfl
  rw [h2]
  simp [List.append_assoc]

/-- Round trip of the front-matter engine on the plain flat fragment:
parsing a serialized document recovers the header and the body exactly,
whatever the body contains. -/
theorem parse_serializeQmdFile (fm : Header) (body : String) (h : plainHeader fm = true) :
    parseQmdFile (serializeQmdFile fm body) = some (fm, body) := by
  have hsplit : (serializeQmdFile fm body).data.splitOn '\n'
      = "---".data :: (fm.map entryLine ++ "---".data :: body.data.splitOn '\n') := by
    rw [serializeQmdFile_data]
    show (("---".data ++ '\n' :: (yamlStringifyAux 0 fm ++ '-' :: '-' :: '-' :: '\n' :: body.data))).splitOnP (· == '\n') = _
    rw [List.splitOnP_first _ "---".data (by decide) '\n' (by decide)]
    rw [show (yamlStringifyAux 0 fm ++ '-' :: '-' :: '-' :: '\n' :: body.data).splitOnP (· == '\n')
        = fm.map entryLine ++ "---".data :: body.data.splitOn '\n' from splitOnP_stringify fm h body.data]
  have hpre : ∀ l ∈ fm.map entryLine, isDelimLine l = false := by
    intro l hl
    obtain ⟨q, hq, rfl⟩ := List.mem_map.mp hl
    obtain ⟨k, v, rfl, _, _⟩ := plainEntry_shape (List.all_eq_true.mp h q hq)
    exact isDelimLine_eq_false (entryLine_colon_mem k v)
  have hfind1 : findDelimIdx ((serializeQmdFile fm body).data.splitOn '\n') = some 0 := by
    rw [hsplit]
    simp [findDelimIdx, show isDelimLine "---".data = true by decide]
  have hdrop1 : ((serializeQmdFile fm body).data.splitOn '\n').drop (0 + 1)
      = fm.map entryLine ++ "---".data :: body.data.splitOn '\n' := by
    rw [hsplit]
    simp
  have hfind2 : findDelimIdx (fm.map entryLine ++ "---".data :: body.data.splitOn '\n')
      = some fm.length := by
    rw [findDelimIdx_append_delim _ _ _ hpre (by decide)]
    simp
  have htake : (fm.map entryLine ++ "---".data :: body.data.splitOn '\n').take fm.length
      = fm.map entryLine := by
    rw [show fm.length = (fm.map entryLine).length by simp]
    exact List.take_left _ _
  have hdrop2 : ((serializeQmdFile fm body).data.splitOn '\n').drop (0 + 1 + fm.length + 1)
      = body.data.splitOn '\n' := by
    rw [hsplit]
    rw [show 0 + 1 + fm.length + 1 = (fm.length + 1) + 1 by omega]
    rw [List.drop_succ_cons]
    rw [show fm.length + 1 = (fm.map entryLine).length + 1 by simp]
    induction fm.map entryLine with
    | nil => simp
    | cons a as ih => simp [ih]
  have hbody : (⟨List.intercalate ['\n'] (body.data.splitOn '\n')⟩ : String) = body := by
    rw [List.intercalate_splitOn body.data '\n']
  simp only [parseQmdFile]
  rw [hfind1]
  simp only []
  rw [hdrop1, hfind2]
  simp only []
  rw [htake, yamlParse_entryRegion fm h]
  simp only []
  rw [hdrop2, hbody]

/-- Keyed update finds the key it wrote when the key was already
present. -/
theorem lookup_map_set_of_any {β : Type} {m : List (String × β)} {k : String} {v : β}
    (h : m.any (fun p => p.1 == k) = true) :
    (m.map (fun p => if p.1 == k then (k, v) else p)).lookup k = some v := by
  induction m with
  | nil => cases h
  | cons a m ih =>
    obtain ⟨x, y⟩ := a
    by_cases ha : (x == k) = true
    · have hxk : x = k := by simpa using ha
      subst hxk
      have hmap : (((x, y) :: m).map (fun p => if p.1 == x then (x, v) else p))
          = (x, v) :: m.map (fun p => if p.1 == x then (x, v) else p) := by simp
      rw [hmap]
      simp [List.lookup]
    · have hxk : (x == k) = false := by simpa using ha
      have h2 : m.any (fun p => p.1 == k) = true := by
        simp only [List.any_cons, Bool.or_eq_true] at h
        rcases h with h1 | h2
        · rw [show ((x, y).1 == k) = (x == k) from rfl, hxk] at h1
          cases h1
        · exact h2
      have hmap : (((x, y) :: m).map (fun p => if p.1 == k then (k, v) else p))
          = (x, y) :: m.map (fun p => if p.1 == k then (k, v) else p) := by
        rw [List.map_cons, if_neg (show ¬(((x, y).1 == k) = true) by simp [hxk])]
      rw [hmap]
      have hkx : (k == x) = false := by
        apply beq_eq_false_iff_ne.mpr
        intro he
        rw [beq_eq_false_iff_ne] at hxk
        exact hxk he.symm
      simp only [List.lookup, hkx]
      exact ih h2

/-- Keyed update finds the key it appended when the key was absent. -/
theorem lookup_append_single_self {β : Type} {m : List (String × β)} {k : String} {v : β}
    (h : m.any (fun p => p.1 == k) = false) :
    (m ++ [(k, v)]).lookup k = some v := by
  induction m with
  | nil => simp [List.lookup]
  | cons a m ih =>
    obtain ⟨x, y⟩ := a
    simp only [List.any_cons, Bool.or_eq_false_iff] at h
    have hkx : (k == x) = false := by
      apply beq_eq_false_iff_ne.mpr
      intro he
      have := h.1
      rw [show ((x, y).1 == k) = (x == k) from rfl] at this
      rw [beq_eq_false_iff_ne] at this
      exact this he.symm
    simp only [List.cons_append, List.lookup, hkx]
    exact ih h.2

/-- Keyed update always finds the key it wrote. -/
theorem jsSet_lookup_self {β : Type} (m : List (String × β)) (k : String) (v : β) :
    (jsSet m k v).lookup k = some v := by
  unfold jsSet
  by_cases h : m.any (fun p => p.1 == k) = true
  · simp only [h, if_true]
    exact lookup_map_set_of_any h
  · simp only [Bool.not_eq_true] at h
    simp only [h, Bool.false_eq_true, if_false]
    exact lookup_append_single_self h

/-- Rewriting the value under one key leaves lookups of any other key
unchanged. -/
theorem lookup_map_set_ne {β : Type} (m : List (String × β)) (k q : String) (v : β)
    (h : (q == k) = false) :
    (m.map (fun p => if p.1 == k then (k, v) else p)).lookup q = m.lookup q := by
  induction m with
  | nil => rfl
  | cons a m ih =>
    obtain ⟨x, y⟩ := a
    by_cases ha : (x == k) = true
    · have hxk : x = k := by simpa using ha
      subst hxk
      have hmap : (((x, y) :: m).map (fun p => if p.1 == x then (x, v) else p))
          = (x, v) :: m.map (fun p => if p.1 == x then (x, v) else p) := by simp
      rw [hmap]
      simp only [List.lookup, h]
      exact ih
    · have hxk : (x == k) = false := by simpa using ha
      have hmap : (((x, y) :: m).map (fun p => if p.1 == k then (k, v) else p))
          = (x, y) :: m.map (fun p => if p.1 == k then (k, v) else p) := by
        rw [List.map_cons, if_neg (show ¬(((x, y).1 == k) = true) by simp [hxk])]
      rw [hmap]
      cases hqx : q == x
      · simp only [List.lookup, hqx]
        exact ih
      · simp only [List.lookup, hqx]

/-- Appending an entry under a fresh key leaves lookups of any other key
unchanged. -/
theorem lookup_append_single_ne {β : Type} (m : List (String × β)) (k q : String) (v : β)
    (h : (q == k) = false) :
    (m ++ [(k, v)]).lookup q = m.lookup q := by
  induction m with
  | nil => simp [List.lookup, h]
  | cons a m ih =>
    obtain ⟨x, y⟩ := a
    cases hqx : q == x
    · simp only [List.cons_append, List.lookup, hqx]
      exact ih
    · simp only [List.cons_append, List.lookup, hqx]

/-- Keyed update leaves every other key unchanged. -/
theorem jsSet_lookup_ne {β : Type} (m : List (String × β)) (k q : String) (v : β)
    (h : (q == k) = false) :
    (jsSet m k v).lookup q = m.lookup q := by
  unfold jsSet
  by_cases hany : m.any (fun p => p.1 == k) = true
  · simp only [hany, if_true]
    exact lookup_map_set_ne m k q v h
  · simp only [Bool.not_eq_true] at hany
    simp only [hany, Bool.false_eq_true, if_false]
    exact lookup_append_single_ne m k q v h

/-- Unfolding of the keyed update when the key is present. -/
theorem jsSet_of_any {β : Type} {m : List (String × β)} {k : String} (v : β)
    (h : m.any (fun p => p.1 == k) = true) :
    jsSet m k v = m.map (fun p => if p.1 == k then (k, v) else p) := by
  unfold jsSet
  simp only [h, if_true]

/-- Unfolding of the keyed update when the key is absent. -/
theorem jsSet_of_not_any {β : Type} {m : List (String × β)} {k : String} (v : β)
    (h : m.any (fun p => p.1 == k) = false) :
    jsSet m k v = m ++ [(k, v)] := by
  unfold jsSet
  simp only [h, Bool.false_eq_true, if_false]

/-- Keyed update always leaves the map containing the written key. -/
theorem any_jsSet {β : Type} (m : List (String × β)) (k : String) (v : β) :
    (jsSet m k v).any (fun p => p.1 == k) = true := by
  by_cases h : m.any (fun p => p.1 == k) = true
  · rw [jsSet_of_any v h]
    induction m with
    | nil => cases h
    | cons a m ih =>
      obtain ⟨x, y⟩ := a
      by_cases hx : (x == k) = true
      · have hxk : x = k := by simpa using hx
        subst hxk
        simp
      · have hxk : (x == k) = false := by simpa using hx
        have h2 : m.any (fun p => p.1 == k) = true := by
          simp only [List.any_cons, Bool.or_eq_true] at h
          rcases h with h1 | h2
          · rw [show ((x, y).1 == k) = (x == k) from rfl, hxk] at h1
            cases h1
          · exact h2
        rw [List.map_cons, if_neg (show ¬(((x, y).1 == k) = true) by simp [hxk])]
        simp only [List.any_cons, Bool.or_eq_true]
        exact Or.inr (ih h2)
  · simp only [Bool.not_eq_true] at h
    rw [jsSet_of_not_any v h]
    simp

/-- Rewriting key occurrences to the same value twice is the same as
doing it once. -/
theorem map_set_map_set {β : Type} (m : List (String × β)) (k : String) (v : β) :
    ((m.map (fun p => if p.1 == k then (k, v) else p)).map
        (fun p => if p.1 == k then (k, v) else p))
      = m.map (fun p => if p.1 == k then (k, v) else p) := by
  induction m with
  | nil => rfl
  | cons a m ih =>
    obtain ⟨x, y⟩ := a
    by_cases hx : (x == k) = true
    · have hxk : x = k := by simpa using hx
      subst hxk
      simp only [List.map_cons]
      rw [if_pos (show (((x, y).1 == x) = true) by simp),
        if_pos (show (((x, v).1 == x) = true) by simp)]
      rw [ih]
    · have hxk : (x == k) = false := by simpa using hx
      simp only [List.map_cons]
      rw [if_neg (show ¬(((x, y).1 == k) = true) by simp [hxk]),
        if_neg (show ¬(((x, y).1 == k) = true) by simp [hxk])]
      rw [ih]

/-- Writing the same value under the same key twice is the same as
writing it once. -/
theorem jsSet_idem {β : Type} (m : List (String × β)) (k : String) (v : β) :
    jsSet (jsSet m k v) k v = jsSet m k v := by
  rw [jsSet_of_any v (any_jsSet m k v)]
  by_cases h : m.any (fun p => p.1 == k) = true
  · rw [jsSet_of_any v h]
    exact map_set_map_set m k v
  · simp only [Bool.not_eq_true] at h
    rw [jsSet_of_not_any v h]
    have hall : ∀ p ∈ m, (p.1 == k) = false := by
      intro p hp
      cases hpk : p.1 == k
      · rfl
      · rw [show m.any (fun p => p.1 == k) = true from
          List.any_eq_true.mpr ⟨p, hp, hpk⟩] at h
        cases h
    induction m with
    | nil =>
      simp only [List.nil_append, List.map_cons, List.map_nil]
      rw [if_pos (show (((k, v).1 == k) = true) by simp)]
    | cons a m ih =>
      obtain ⟨x, y⟩ := a
      have hx : (x == k) = false := hall (x, y) (List.mem_cons_self _ _)
      simp only [List.cons_append, List.map_cons]
      rw [if_neg (show ¬(((x, y).1 == k) = true) by simp [hx])]
      rw [ih (by simp only [List.any_cons, Bool.or_eq_false_iff] at h; exact h.2)
        (fun p hp => hall p (List.mem_cons_of_mem _ hp))]

/-- Keyed update of a plain header with a plain entry stays plain. -/
theorem plainHeader_jsSet {m : Header} {k : String} {v : Yval}
    (hm : plainHeader m = true) (hkv : plainEntry (k, v) = true) :
    plainHeader (jsSet m k v) = true := by
  unfold jsSet
  by_cases h : m.any (fun p => p.1 == k) = true
  · simp only [h, if_true]
    apply List.all_eq_true.mpr
    intro p hp
    obtain ⟨q, hq, rfl⟩ := List.mem_map.mp hp
    by_cases hqk : (q.1 == k) = true
    · rw [if_pos hqk]
      exact hkv
    · rw [if_neg hqk]
      exact List.all_eq_true.mp hm q hq
  · simp only [Bool.not_eq_true] at h
    simp only [h, Bool.false_eq_true, if_false]
    apply List.all_eq_true.mpr
    intro p hp
    rcases List.mem_append.mp hp with hp1 | hp2
    · exact List.all_eq_true.mp hm p hp1
    · rw [List.mem_singleton.mp hp2]
      exact hkv

/-- Claim C1: when the validation contract of the looked-up tool reports
the params invalid, registry execute fails with an error carrying the
full ordered list of validation error strings (joined in order into the
message), and the outcome does not depend on the execute behaviour of the
tool at all, so the side-effecting code of the tool never runs. -/
theorem registryExecute_invalid_params_rejected {α : Type} (reg : Registry α)
    (toolName : String) (params : Params) (t : Tool α)
    (hl : reg.lookup toolName = some t)
    (hv : (t.validateParams params).valid = false) :
    registryExecute reg toolName params
      = Except.error ("Parameter validation failed: "
          ++ String.intercalate ", " (t.validateParams params).errors)
    ∧ ∀ (reg2 : Registry α) (t2 : Tool α), reg2.lookup toolName = some t2 →
        t2.validateParams = t.validateParams →
        registryExecute reg2 toolName params = registryExecute reg toolName params := by
  have hmain : ∀ (r : Registry α) (u : Tool α), r.lookup toolName = some u →
      u.validateParams = t.validateParams →
      registryExecute r toolName params
        = Except.error ("Parameter validation failed: "
            ++ String.intercalate ", " (t.validateParams params).errors) := by
    intro r u hr hu
    unfold registryExecute
    rw [hr]
    show (let validation := u.validateParams params
      if validation.valid then u.execute params
      else Except.error ("Parameter validation failed: "
        ++ String.intercalate ", " validation.errors)) = _
    rw [hu]
    simp only [hv, Bool.false_eq_true, if_false]
  exact ⟨hmain reg t hl rfl, fun reg2 t2 h2 he => by
    rw [hmain reg2 t2 h2 he, hmain reg t hl rfl]⟩

/-- Witness for C1: the GithubActionsCreateSecret validation contract on
the empty params mapping is invalid, and registry execute on that tool
fails with the joined full error list without consulting the execute
body. -/
theorem registryExecute_invalid_params_rejected_witness :
    (([("github_actions_create_secret", secretWitnessTool)] : Registry Unit).lookup
        "github_actions_create_secret" = some secretWitnessTool)
    ∧ ((secretWitnessTool.validateParams []).valid = false)
    ∧ registryExecute [("github_actions_create_secret", secretWitnessTool)]
        "github_actions_create_secret" []
        = Except.error ("Parameter validation failed: "
            ++ String.intercalate ", " (secretWitnessTool.validateParams []).errors)
    ∧ String.intercalate ", " (secretWitnessTool.validateParams []).errors
        = "repository_name is required, secret_name is required, secret_value is required" :=
  ⟨rfl, rfl,
    (registryExecute_invalid_params_rejected [("github_actions_create_secret", secretWitnessTool)]
      "github_actions_create_secret" [] secretWitnessTool rfl rfl).1, rfl⟩

/-- Claim C3: executing an unregistered tool name fails with an error
whose message names the unknown tool; the pure lookup consults nothing
else, so nothing is executed before the failure. -/
theorem registryExecute_unknown_tool {α : Type} (reg : Registry α) (toolName : String)
    (params : Params) (h : reg.lookup toolName = none) :
    registryExecute reg toolName params
      = Except.error ("Tool \x27" ++ toolName ++ "\x27 not found") := by
  unfold registryExecute
  rw [h]

/-- Witness for C3: the empty registry knows no tool, and executing the
name does_not_exist fails with the message naming it. -/
theorem registryExecute_unknown_tool_witness :
    (([] : Registry Unit).lookup "does_not_exist" = none)
    ∧ registryExecute ([] : Registry Unit) "does_not_exist" []
        = Except.error "Tool \x27does_not_exist\x27 not found" :=
  ⟨rfl, registryExecute_unknown_tool ([] : Registry Unit) "does_not_exist" [] rfl⟩

/-- Claim C4: the two three-required-field tools, invoked on the empty
params mapping, report invalid with exactly three errors, one per
violated required-field constraint, in source order. -/
theorem validateParams_empty_enumerates_all_errors :
    githubActionsCreateSecretValidateParams []
      = { valid := false,
          errors := ["repository_name is required", "secret_name is required",
            "secret_value is required"] }
    ∧ (githubActionsCreateSecretValidateParams []).errors.length = 3
    ∧ quartoCreateProjectValidateParams []
      = { valid := false,
          errors := ["project_directory_name is required", "create_git_repo must be a boolean",
            "use_renv must be a boolean"] }
    ∧ (quartoCreateProjectValidateParams []).errors.length = 3 :=
  ⟨rfl, rfl, rfl, rfl⟩

/-- Counterexample to claim C5: registering a second tool under an
already-registered name does not fail; it silently replaces the first
tool, which is lost. -/
theorem register_duplicate_counterexample :
    register (register ([] : Registry Unit) dupToolA) dupToolB = [("dup", dupToolB)]
    ∧ dupToolB.description ≠ dupToolA.description := by
  constructor
  · rfl
  · decide

/-- Claim C5 as amended: register is an unconditional keyed update, so
the latest registration under a name always wins and is what lookup
finds afterwards; no error is ever raised. -/
theorem register_last_write_wins {α : Type} (reg : Registry α) (t : Tool α) :
    (register reg t).lookup t.name = some t :=
  jsSet_lookup_self reg t.name t

/-- Claim C2: the engine round-trips on the modelled plain flat header
fragment, for any body whatsoever; and the two concrete scenarios of the
spec hold: the title document parses as stated, and serializing the
dashboard header emits exactly the stated text. -/
theorem frontmatter_roundtrip (fm : Header) (body : String) (h : plainHeader fm = true) :
    parseQmdFile (serializeQmdFile fm body) = some (fm, body)
    ∧ parseQmdFile "---\ntitle: Foo\n---\nBody text"
        = some ([("title", Yval.s "Foo")], "Body text")
    ∧ serializeQmdFile [("format", Yval.s "dashboard")] "# Hi"
        = "---\nformat: dashboard\n---\n# Hi" :=
  ⟨parse_serializeQmdFile fm body h, rfl, rfl⟩

/-- Witness for C2: the title header is inside the plain fragment and
round-trips with the body Body text. -/
theorem frontmatter_roundtrip_witness :
    plainHeader [("title", Yval.s "Foo")] = true
    ∧ parseQmdFile (serializeQmdFile [("title", Yval.s "Foo")] "Body text")
        = some ([("title", Yval.s "Foo")], "Body text") := by
  constructor
  · decide
  · exact (frontmatter_roundtrip [("title", Yval.s "Foo")] "Body text" (by decide)).1

/-- Dropping past a block and one further element lands on the tail. -/
theorem drop_len_succ_append {γ : Type} (pre : List γ) (d : γ) (tail : List γ) :
    (pre ++ d :: tail).drop (pre.length + 1) = tail := by
  induction pre with
  | nil => simp
  | cons a as ih => simp [ih]

/-- Claim C6: an input with fewer than two delimiter lines parses to the
empty header with the body equal to the whole original input, without
failing; in particular for the concrete headerless text of the spec. -/
theorem parseQmdFile_headerless_safety (content : String)
    (h : (content.data.splitOn '\n').countP isDelimLine < 2) :
    parseQmdFile content = some ([], content)
    ∧ parseQmdFile "just text, no header" = some ([], "just text, no header") := by
  refine ⟨?_, by rfl⟩
  cases hf : findDelimIdx (content.data.splitOn '\n') with
  | none => simp [parseQmdFile, hf]
  | some i =>
    obtain ⟨pre, d, tail, hdecomp, hlen, hpre, hd⟩ := findDelimIdx_eq_some hf
    have htail : ∀ l ∈ tail, isDelimLine l = false := by
      intro l hl
      cases hld : isDelimLine l
      · rfl
      · exfalso
        have h1 : 0 < tail.countP isDelimLine := List.countP_pos_iff.mpr ⟨l, hl, hld⟩
        rw [hdecomp, List.countP_append, List.countP_cons] at h
        simp only [hd, if_true] at h
        omega
    have hdrop : (content.data.splitOn '\n').drop (i + 1) = tail := by
      rw [hdecomp, ← hlen]
      exact drop_len_succ_append pre d tail
    have hf2 : findDelimIdx ((content.data.splitOn '\n').drop (i + 1)) = none := by
      rw [hdrop]
      exact findDelimIdx_eq_none tail htail
    simp [parseQmdFile, hf, hf2]

/-- Witness for C6: the concrete headerless text has no delimiter line at
all and parses to the empty header with itself as body. -/
theorem parseQmdFile_headerless_safety_witness :
    ((("just text, no header" : String).data.splitOn '\n').countP isDelimLine < 2)
    ∧ parseQmdFile "just text, no header" = some ([], "just text, no header") := by
  constructor
  · decide
  · exact (parseQmdFile_headerless_safety "just text, no header" (by decide)).1

/-- Claim C7: serializing the empty header puts nothing between the two
delimiter lines, producing well-formed output that parses back to the
empty header with the body untouched, for every body. -/
theorem serializeQmdFile_empty_header (body : String) :
    serializeQmdFile [] body = "---\n---\n" ++ body
    ∧ parseQmdFile (serializeQmdFile [] body) = some ([], body) :=
  ⟨rfl, parse_serializeQmdFile [] body rfl⟩

/-- Claim C8: the header mutation of the layout tool on a document whose
header holds title Foo and format dashboard only touches the format,
layout and orientation fields, so the title field is preserved
unchanged; and the produced document is exactly the serialization of the
mutated header over the unchanged body. -/
theorem defineDashboardLayout_preserves_title (content : String) (fm : Header) (body : String)
    (layout : Yval) (orientation : String)
    (hp : parseQmdFile content = some (fm, body))
    (htitle : fm.lookup "title" = some (Yval.s "Foo"))
    (hformat : fm.lookup "format" = some (Yval.s "dashboard")) :
    (defineDashboardLayoutHeader layout orientation fm).lookup "title" = some (Yval.s "Foo")
    ∧ defineDashboardLayoutContent layout orientation content
        = some (serializeQmdFile (defineDashboardLayoutHeader layout orientation fm) body) := by
  constructor
  · show (jsSet (jsSet (if headerValIs (fm.lookup "format") "dashboard" then fm
        else jsSet fm "format" (Yval.s "dashboard")) "layout" layout) "orientation"
        (Yval.s orientation)).lookup "title" = some (Yval.s "Foo")
    rw [hformat]
    rw [show headerValIs (some (Yval.s "dashboard")) "dashboard" = true from rfl]
    simp only [if_true]
    rw [jsSet_lookup_ne _ "orientation" "title" _ (by decide),
      jsSet_lookup_ne _ "layout" "title" _ (by decide)]
    exact htitle
  · unfold defineDashboardLayoutContent
    rw [hp]
    rfl

/-- Witness for C8: a concrete dashboard document with title Foo keeps
its title after the layout mutation. -/
theorem defineDashboardLayout_preserves_title_witness :
    parseQmdFile "---\ntitle: Foo\nformat: dashboard\n---\nB"
        = some ([("title", Yval.s "Foo"), ("format", Yval.s "dashboard")], "B")
    ∧ (defineDashboardLayoutHeader (Yval.obj (Yfields.cons "columns" (Yval.s "wide") Yfields.nil))
        "columns" [("title", Yval.s "Foo"), ("format", Yval.s "dashboard")]).lookup "title"
        = some (Yval.s "Foo") := by
  constructor
  · rfl
  · exact (defineDashboardLayout_preserves_title "---\ntitle: Foo\nformat: dashboard\n---\nB"
      [("title", Yval.s "Foo"), ("format", Yval.s "dashboard")] "B"
      (Yval.obj (Yfields.cons "columns" (Yval.s "wide") Yfields.nil)) "columns"
      rfl rfl rfl).1

/-- Claim C9: setting the format field to dashboard is idempotent on the
document bytes for documents whose header lies in the modelled plain
fragment: a second application returns exactly the output of the first. -/
theorem defineDashboardFormat_idempotent (content : String) (fm : Header) (body : String)
    (hp : parseQmdFile content = some (fm, body)) (h : plainHeader fm = true) :
    (defineDashboardFormatContent "dashboard" content).bind
        (defineDashboardFormatContent "dashboard")
      = defineDashboardFormatContent "dashboard" content := by
  have hkv : plainEntry ("format", Yval.s "dashboard") = true := by decide
  have hfm2 : plainHeader (jsSet fm "format" (Yval.s "dashboard")) = true :=
    plainHeader_jsSet h hkv
  unfold defineDashboardFormatContent
  rw [hp]
  show defineDashboardFormatContent "dashboard"
      (serializeQmdFile (jsSet fm "format" (Yval.s "dashboard")) body)
    = some (serializeQmdFile (jsSet fm "format" (Yval.s "dashboard")) body)
  unfold defineDashboardFormatContent
  rw [parse_serializeQmdFile _ _ hfm2]
  show some (serializeQmdFile
      (jsSet (jsSet fm "format" (Yval.s "dashboard")) "format" (Yval.s "dashboard")) body) = _
  rw [jsSet_idem]

/-- Witness for C9: a concrete titled document, converted twice, is
byte-identical to the single conversion. -/
theorem defineDashboardFormat_idempotent_witness :
    parseQmdFile "---\ntitle: Foo\n---\nhello"
        = some ([("title", Yval.s "Foo")], "hello")
    ∧ plainHeader [("title", Yval.s "Foo")] = true
    ∧ (defineDashboardFormatContent "dashboard" "---\ntitle: Foo\n---\nhello").bind
        (defineDashboardFormatContent "dashboard")
      = defineDashboardFormatContent "dashboard" "---\ntitle: Foo\n---\nhello" := by
  refine ⟨rfl, by decide, ?_⟩
  exact defineDashboardFormat_idempotent "---\ntitle: Foo\n---\nhello"
    [("title", Yval.s "Foo")] "hello" rfl (by decide)

/-- The project directory itself lies under the project directory. -/
theorem underDir_self (dir : String) : underDir dir dir = true := by
  simp [underDir]

/-- Filtering away the project region commutes with running steps whose
created paths all lie inside the project region. -/
theorem runSteps_filter (dir : String) (steps : List StepRes)
    (hsteps : ∀ s ∈ steps, ∀ p ∈ s.created, underDir dir p = true) :
    ∀ fs : List String, ((runSteps fs steps).1).filter (fun p => !underDir dir p)
      = fs.filter (fun p => !underDir dir p) := by
  induction steps with
  | nil => intro fs; rfl
  | cons s rest ih =>
    intro fs
    have hcr : s.created.filter (fun p => !underDir dir p) = [] := by
      apply List.filter_eq_nil_iff.mpr
      intro p hp
      simp [hsteps s (List.mem_cons_self _ _) p hp]
    unfold runSteps
    cases he : s.err with
    | some e =>
      simp only []
      rw [List.filter_append, hcr, List.append_nil]
    | none =>
      simp only []
      rw [ih (fun u hu => hsteps u (List.mem_cons_of_mem _ hu)) (fs ++ s.created)]
      rw [List.filter_append, hcr, List.append_nil]

/-- Claim C10: when the target directory already exists the scaffolding
tool fails with the message naming it and the filesystem is unchanged;
and when the directory is fresh, any failure of a later step (scaffold,
git, renv, README), whose effects all lie inside the project directory,
leaves the filesystem exactly as before the call: the whole project
directory is removed before the error propagates. -/
theorem createProjectExecute_cleanup_on_failure (fs : List String) (dir : String)
    (cg ur : Bool) (qs gs rs ds : StepRes) :
    (fs.any (fun p => p == dir) = true →
      createProjectExecute fs dir cg ur qs gs rs ds
        = (fs, some ("Directory \x27" ++ dir ++ "\x27 already exists")))
    ∧ ((∀ p ∈ fs, underDir dir p = false) →
       (∀ p ∈ qs.created, underDir dir p = true) →
       (∀ p ∈ gs.created, underDir dir p = true) →
       (∀ p ∈ rs.created, underDir dir p = true) →
       (∀ p ∈ ds.created, underDir dir p = true) →
       ∀ e, (createProjectExecute fs dir cg ur qs gs rs ds).2 = some e →
         (createProjectExecute fs dir cg ur qs gs rs ds).1 = fs) := by
  constructor
  · intro h
    unfold createProjectExecute
    simp only [h, if_true]
  · intro h0 hq hg hr hd e
    have hany : fs.any (fun p => p == dir) = false := by
      cases hany : fs.any (fun p => p == dir)
      · rfl
      · exfalso
        obtain ⟨p, hp, hpk⟩ := List.any_eq_true.mp hany
        have hpd : p = dir := by simpa using hpk
        have h1 := h0 p hp
        rw [hpd, underDir_self dir] at h1
        cases h1
    have hsteps : ∀ s ∈ ([qs] ++ (if cg then [gs] else []) ++ (if ur then [rs] else []) ++ [ds]),
        ∀ p ∈ s.created, underDir dir p = true := by
      intro s hs
      have hcases : s = qs ∨ s = gs ∨ s = rs ∨ s = ds := by
        cases cg <;> cases ur <;> simp_all [List.mem_append, List.mem_cons] <;> tauto
      rcases hcases with rfl | rfl | rfl | rfl
      exacts [hq, hg, hr, hd]
    have hfilter : ((runSteps (fs ++ [dir])
          ([qs] ++ (if cg then [gs] else []) ++ (if ur then [rs] else []) ++ [ds])).1).filter
          (fun p => !underDir dir p) = fs := by
      rw [runSteps_filter dir _ hsteps (fs ++ [dir])]
      rw [List.filter_append]
      rw [show ([dir].filter (fun p => !underDir dir p)) = [] by
        simp [underDir_self dir]]
      rw [List.append_nil]
      apply List.filter_eq_self.mpr
      intro p hp
      simp [h0 p hp]
    unfold createProjectExecute
    simp only [hany, Bool.false_eq_true, if_false]
    cases hrun : runSteps (fs ++ [dir])
        ([qs] ++ (if cg then [gs] else []) ++ (if ur then [rs] else []) ++ [ds]) with
    | mk fs2 errOpt =>
      cases errOpt with
      | none => intro hcon; cases hcon
      | some e2 =>
        intro _
        simp only []
        rw [show fs2 = (runSteps (fs ++ [dir])
            ([qs] ++ (if cg then [gs] else []) ++ (if ur then [rs] else []) ++ [ds])).1 by
          rw [hrun]]
        exact hfilter

/-- Witness for C10: one concrete run where the directory already exists
and the filesystem is returned unchanged with the error, and one where
git initialization fails after scaffolding and the filesystem is
restored exactly. -/
theorem createProjectExecute_cleanup_on_failure_witness :
    createProjectExecute ["proj"] "proj" true true
        ⟨["proj/_quarto.yml"], none⟩ ⟨[], some "git init failed"⟩ ⟨[], none⟩
        ⟨["proj/README.md"], none⟩
      = (["proj"], some "Directory \x27proj\x27 already exists")
    ∧ (createProjectExecute ["other"] "proj" true false
        ⟨["proj/_quarto.yml", "proj/index.qmd", "proj/styles.css"], none⟩
        ⟨[], some "git init failed"⟩ ⟨[], none⟩ ⟨["proj/README.md"], none⟩).1 = ["other"] := by
  constructor
  · exact (createProjectExecute_cleanup_on_failure ["proj"] "proj" true true
      ⟨["proj/_quarto.yml"], none⟩ ⟨[], some "git init failed"⟩ ⟨[], none⟩
      ⟨["proj/README.md"], none⟩).1 rfl
  · exact (createProjectExecute_cleanup_on_failure ["other"] "proj" true false
      ⟨["proj/_quarto.yml", "proj/index.qmd", "proj/styles.css"], none⟩
      ⟨[], some "git init failed"⟩ ⟨[], none⟩ ⟨["proj/README.md"], none⟩).2
      (by decide) (by decide) (by decide) (by decide) (by decide) "git init failed" rfl
